import Mathlib

/-
Verification of the sprite/group membership layer (src/lib/sprite.py), the
Surface/Numeric-array interop (src/pygame/surfarray.py) and the UserRect
wrapper (src/lib/UserRect.py) of this repository.

Python objects are identified by natural-number ids.  The private dictionary
`Sprite.__g` of every sprite and the dictionary `Group.spritedict` of every
group only ever store the value 0, so each dictionary is embedded as its key
list (kept in insertion order, without duplicates, exactly as a Python dict
behaves on its keys).  The global heap is a `World` mapping every sprite id
to its key list of groups and every group id to its key list of sprites.

Python exceptions are embedded as `PyErr`; an operation that can raise
returns `Except (PyErr × World) World`, the error case carrying the world at
the moment the exception escapes (Python mutations made before the raise are
kept, exactly as in the source).
-/

/-- The Python exceptions that the embedded code can raise. -/
inductive PyErr where
  | nameError
  | unboundLocalError
  | keyError
  | valueError
  | typeError
  | notImplementedError
  | assertionError
  deriving DecidableEq

/-- Python dict assignment `d[k] = 0` restricted to the key list: a present
key is left in place, an absent key is appended. -/
def dictInsert (k : Nat) (l : List Nat) : List Nat :=
  if k ∈ l then l else l ++ [k]

/-- Python `del d[k]` restricted to the key list: removes the key, or fails
with `KeyError` (`none`) when the key is absent. -/
def dictDel (k : Nat) (l : List Nat) : Option (List Nat) :=
  if k ∈ l then some (l.erase k) else none

/-- The heap of all sprite and group objects: `sgroups s` is the key list of
sprite `s`'s private dictionary `Sprite.__g`, `gsprites g` is the key list of
group `g`'s dictionary `Group.spritedict`. -/
structure World where
  sgroups : Nat → List Nat
  gsprites : Nat → List Nat

/-- The world in which every `Sprite.__init__()` and `Group.__init__()` has
run with the default empty argument: all dictionaries are empty.  (With the
default `group=()` / `sprite=()` both constructors leave the fresh
dictionary empty: the tuple has no `_spritegroup` attribute and iterating it
does nothing, and `Group.__init__` skips `add` entirely on a falsy
argument.) -/
def World.init : World := ⟨fun _ => [], fun _ => []⟩

/-- Replace sprite `s`'s group dictionary. -/
def setSG (w : World) (s : Nat) (l : List Nat) : World :=
  { w with sgroups := Function.update w.sgroups s l }

/-- Replace group `g`'s sprite dictionary. -/
def setGS (w : World) (g : Nat) (l : List Nat) : World :=
  { w with gsprites := Function.update w.gsprites g l }

/-- The argument accepted by the add/remove/has methods: either one object
of the natural kind (a Group for the Sprite methods, a Sprite for the Group
methods), or a sequence of ids.  The source distinguishes the two cases with
`hasattr(arg, '_spritegroup')`, which is true exactly for Group objects
(`Group._spritegroup = 1`); plain Sprite objects have no such attribute. -/
inductive PyArg where
  | single (x : Nat)
  | seq (xs : List Nat)

/-- The two dictionary updates shared by every successful insertion path:
`spritedict[s] = 0` on the group side and `__g[g] = 0` on the sprite side. -/
def linkAdd (s g : Nat) (w : World) : World :=
  { sgroups := Function.update w.sgroups s (dictInsert g (w.sgroups s)),
    gsprites := Function.update w.gsprites g (dictInsert s (w.gsprites g)) }

/-- `Sprite.add` (src/lib/sprite.py:116).  A single group argument has
`_spritegroup`; a sequence is looped over, checking the live `__g` each
iteration.  The method never raises. -/
def Sprite.add (s : Nat) (a : PyArg) (w : World) : World :=
  match a with
  | .single g => if g ∈ w.sgroups s then w else linkAdd s g w
  | .seq gs => gs.foldl (fun w1 g => if g ∈ w1.sgroups s then w1 else linkAdd s g w1) w

/-- One step of the removal loops: `g.remove_internal(self)` (that is,
`del g.spritedict[s]`) followed by `del s.__g[g]`, each a fallible Python
`del`. -/
def unlink (s g : Nat) (w : World) : Except (PyErr × World) World :=
  match dictDel s (w.gsprites g) with
  | none => .error (.keyError, w)
  | some l =>
    match dictDel g ((setGS w g l).sgroups s) with
    | none => .error (.keyError, setGS w g l)
    | some l2 => .ok (setSG (setGS w g l) s l2)

/-- The loop of the sequence branch of `Sprite.remove`
(src/lib/sprite.py:144): `for g in group: if has(g): g.remove_internal(self);
del self.__g[g]`, checking the live dictionary each iteration. -/
def Sprite.removeSeq (s : Nat) (gs : List Nat) (w : World) : Except (PyErr × World) World :=
  match gs with
  | [] => .ok w
  | g :: rest =>
    if g ∈ w.sgroups s then
      match unlink s g w with
      | .error e => .error e
      | .ok w1 => Sprite.removeSeq s rest w1
    else Sprite.removeSeq s rest w

/-- `Sprite.remove` (src/lib/sprite.py:133).  In the single-group branch the
source executes `group.remove_internal(self)` and then `del self.__g[g]`,
but `g` is a local variable that is only assigned in the `for g in group`
loop of the other branch, so the lookup of `g` raises `UnboundLocalError`
after the group-side deletion has already happened. -/
def Sprite.remove (s : Nat) (a : PyArg) (w : World) : Except (PyErr × World) World :=
  match a with
  | .single g =>
    if g ∈ w.sgroups s then
      match dictDel s (w.gsprites g) with
      | none => .error (.keyError, w)
      | some l => .error (.unboundLocalError, setGS w g l)
    else .ok w
  | .seq gs => Sprite.removeSeq s gs w

/-- The loop of `Sprite.kill` (src/lib/sprite.py:163): `for c in
self.__g.keys(): c.remove_internal(self)` over a snapshot of the key list. -/
def Sprite.killLoop (s : Nat) (gs : List Nat) (w : World) : Except (PyErr × World) World :=
  match gs with
  | [] => .ok w
  | g :: rest =>
    match dictDel s (w.gsprites g) with
    | none => .error (.keyError, w)
    | some l => Sprite.killLoop s rest (setGS w g l)

/-- `Sprite.kill` (src/lib/sprite.py:155): remove the sprite from every
group in its dictionary, then `self.__g.clear()`. -/
def Sprite.kill (s : Nat) (w : World) : Except (PyErr × World) World :=
  match Sprite.killLoop s (w.sgroups s) w with
  | .error e => .error e
  | .ok w1 => .ok (setSG w1 s [])

/-- `Sprite.alive` (src/lib/sprite.py:174) returns `len(self.__g)`; the
sprite is truthy-alive iff this is nonzero. -/
def Sprite.alive (s : Nat) (w : World) : Nat :=
  (w.sgroups s).length

/-- `Group.add` (src/lib/sprite.py:216).  A single Sprite argument has no
`_spritegroup` attribute, so the source falls into the sequence branch and
executes `for sprite in sprites` over the Sprite object itself; Sprite
defines no iteration protocol, so the loop raises `TypeError` before any
dictionary is touched.  A sequence argument is looped over, checking the
live `spritedict` each iteration and updating both sides. -/
def Group.add (g : Nat) (a : PyArg) (w : World) : Except (PyErr × World) World :=
  match a with
  | .single _ => .error (.typeError, w)
  | .seq ss => .ok (ss.foldl (fun w1 s => if s ∈ w1.gsprites g then w1 else linkAdd s g w1) w)

/-- `Group.remove` (src/lib/sprite.py:233).  Its first statement after
binding `has` is `if hasattr(sprites, '_spritegroup')`, but `sprites` is a
local variable that is only assigned later (`sprites = sprite` in the else
branch), so evaluating the `hasattr` argument raises `UnboundLocalError`
unconditionally, before any membership test or mutation. -/
def Group.remove (_g : Nat) (_a : PyArg) (w : World) : Except (PyErr × World) World :=
  .error (.unboundLocalError, w)

/-- `Group.has` (src/lib/sprite.py:255).  Exactly as in `Group.remove`, the
test `hasattr(sprites, '_spritegroup')` reads the unassigned local
`sprites`, so the method raises `UnboundLocalError` on every call and never
returns a truth value (and never mutates anything). -/
def Group.has (_g : Nat) (_a : PyArg) (_w : World) : Except PyErr Bool :=
  .error .unboundLocalError

/-- The loop of `Group.empty` (src/lib/sprite.py:275): `for s in
self.spritedict.keys(): self.remove_internal(s); s.remove_internal(self)`
over a snapshot of the key list. -/
def Group.emptyLoop (g : Nat) (ss : List Nat) (w : World) : Except (PyErr × World) World :=
  match ss with
  | [] => .ok w
  | s :: rest =>
    match unlink s g w with
    | .error e => .error e
    | .ok w1 => Group.emptyLoop g rest w1

/-- `Group.empty` (src/lib/sprite.py:270): the loop above followed by
`self.spritedict.clear()`. -/
def Group.empty (g : Nat) (w : World) : Except (PyErr × World) World :=
  match Group.emptyLoop g (w.gsprites g) w with
  | .error e => .error e
  | .ok w1 => .ok (setGS w1 g [])

/-- The loop of `spritecollide` (src/lib/sprite.py:480): over a snapshot of
`group.loop()` (that is, `spritedict.keys()`), test the fixed predicate
`sprite.rect.colliderect(s.rect)`, kill on demand, and append to `crashed`. -/
def spritecollideLoop (hit : Nat → Bool) (dokill : Bool) (ss : List Nat) (w : World)
    (acc : List Nat) : Except (PyErr × World) (List Nat × World) :=
  match ss with
  | [] => .ok (acc, w)
  | s :: rest =>
    if hit s then
      if dokill then
        match Sprite.kill s w with
        | .error e => .error e
        | .ok w1 => spritecollideLoop hit dokill rest w1 (acc ++ [s])
      else spritecollideLoop hit dokill rest w (acc ++ [s])
    else spritecollideLoop hit dokill rest w acc

/-- `spritecollide(sprite, group, dokill)` (src/lib/sprite.py:468).  The
rectangle geometry lives in the wrapped native library, so the embedding is
parametric in the rect of every sprite and in `Rect.colliderect`. -/
def spritecollide {R : Type} (rect : Nat → R) (colliderect : R → R → Bool)
    (sp g : Nat) (dokill : Bool) (w : World) : Except (PyErr × World) (List Nat × World) :=
  spritecollideLoop (fun s => colliderect (rect sp) (rect s)) dokill (w.gsprites g) w []

/-- Well-formedness every Python dict enjoys by construction: no duplicate
keys. -/
def WFdicts (w : World) : Prop :=
  (∀ x, (w.sgroups x).Nodup) ∧ (∀ x, (w.gsprites x).Nodup)

/-- The bidirectional membership invariant: a sprite records a group exactly
when the group records the sprite. -/
def MutualInv (w : World) : Prop :=
  ∀ s g, g ∈ w.sgroups s ↔ s ∈ w.gsprites g

/-- The full invariant of reachable worlds. -/
def SGInv (w : World) : Prop :=
  WFdicts w ∧ MutualInv w

theorem mem_dictInsert {k x : Nat} {l : List Nat} :
    x ∈ dictInsert k l ↔ x = k ∨ x ∈ l := by
  unfold dictInsert
  split
  · constructor
    · exact fun h => Or.inr h
    · rintro (rfl | h) <;> assumption
  · simp [or_comm]

theorem nodup_dictInsert {k : Nat} {l : List Nat} (h : l.Nodup) :
    (dictInsert k l).Nodup := by
  unfold dictInsert
  split
  · exact h
  · next hk =>
    rw [List.nodup_append]
    exact ⟨h, List.nodup_singleton k, by simpa [List.disjoint_singleton] using hk⟩

theorem dictDel_eq_some {k : Nat} {l l' : List Nat} :
    dictDel k l = some l' ↔ k ∈ l ∧ l' = l.erase k := by
  unfold dictDel
  split
  · next h => simp [h, eq_comm]
  · next h => simp [h]

/-- Both dictionaries after the shared double-erase of `unlink`. -/
def linkErase (s g : Nat) (w : World) : World :=
  setSG (setGS w g ((w.gsprites g).erase s)) s ((w.sgroups s).erase g)

theorem setGS_sgroups (w : World) (g : Nat) (l : List Nat) :
    (setGS w g l).sgroups = w.sgroups := rfl

theorem unlink_eq {s g : Nat} {w : World} (hs : s ∈ w.gsprites g) (hg : g ∈ w.sgroups s) :
    unlink s g w = .ok (linkErase s g w) := by
  have h1 : dictDel s (w.gsprites g) = some ((w.gsprites g).erase s) :=
    dictDel_eq_some.mpr ⟨hs, rfl⟩
  have h2 : dictDel g (w.sgroups s) = some ((w.sgroups s).erase g) :=
    dictDel_eq_some.mpr ⟨hg, rfl⟩
  simp only [unlink, linkErase, h1, h2, setGS_sgroups]

theorem WFdicts_linkAdd {w : World} (h : WFdicts w) (s g : Nat) :
    WFdicts (linkAdd s g w) := by
  constructor
  · intro x
    by_cases hx : x = s
    · subst hx
      show (Function.update w.sgroups x (dictInsert g (w.sgroups x)) x).Nodup
      rw [Function.update_same]
      exact nodup_dictInsert (h.1 x)
    · show (Function.update w.sgroups s (dictInsert g (w.sgroups s)) x).Nodup
      rw [Function.update_noteq hx]
      exact h.1 x
  · intro x
    by_cases hx : x = g
    · subst hx
      show (Function.update w.gsprites x (dictInsert s (w.gsprites x)) x).Nodup
      rw [Function.update_same]
      exact nodup_dictInsert (h.2 x)
    · show (Function.update w.gsprites g (dictInsert s (w.gsprites g)) x).Nodup
      rw [Function.update_noteq hx]
      exact h.2 x

theorem MutualInv_linkAdd {w : World} (h : MutualInv w) (s g : Nat) :
    MutualInv (linkAdd s g w) := by
  intro s1 g1
  show g1 ∈ Function.update w.sgroups s (dictInsert g (w.sgroups s)) s1
    ↔ s1 ∈ Function.update w.gsprites g (dictInsert s (w.gsprites g)) g1
  by_cases hs : s1 = s <;> by_cases hg : g1 = g
  · subst hs; subst hg
    rw [Function.update_same, Function.update_same]
    simp [mem_dictInsert]
  · subst hs
    rw [Function.update_same, Function.update_noteq hg, mem_dictInsert]
    simp only [hg, false_or]
    exact h s1 g1
  · subst hg
    rw [Function.update_noteq hs, Function.update_same, mem_dictInsert]
    simp only [hs, false_or]
    exact h s1 g1
  · rw [Function.update_noteq hs, Function.update_noteq hg]
    exact h s1 g1

theorem SGInv_linkAdd {w : World} (h : SGInv w) (s g : Nat) : SGInv (linkAdd s g w) :=
  ⟨WFdicts_linkAdd h.1 s g, MutualInv_linkAdd h.2 s g⟩

theorem SGInv_foldl {f : World → Nat → World} (hf : ∀ w x, SGInv w → SGInv (f w x)) :
    ∀ (l : List Nat) (w : World), SGInv w → SGInv (l.foldl f w) := by
  intro l
  induction l with
  | nil => exact fun w h => h
  | cons x xs ih => exact fun w h => ih (f w x) (hf w x h)

theorem SGInv_spriteAdd {w : World} (h : SGInv w) (s : Nat) (a : PyArg) :
    SGInv (Sprite.add s a w) := by
  cases a with
  | single g =>
    by_cases hg : g ∈ w.sgroups s
    · simpa [Sprite.add, hg] using h
    · simpa [Sprite.add, hg] using SGInv_linkAdd h s g
  | seq gs =>
    simp only [Sprite.add]
    refine SGInv_foldl ?_ gs w h
    intro w1 g h1
    show SGInv (if g ∈ w1.sgroups s then w1 else linkAdd s g w1)
    by_cases hg : g ∈ w1.sgroups s
    · rw [if_pos hg]; exact h1
    · rw [if_neg hg]; exact SGInv_linkAdd h1 s g

theorem SGInv_groupAdd {w w' : World} (h : SGInv w) (g : Nat) (a : PyArg)
    (hok : Group.add g a w = .ok w') : SGInv w' := by
  cases a with
  | single s => exact absurd hok (by simp [Group.add])
  | seq ss =>
    simp only [Group.add, Except.ok.injEq] at hok
    subst hok
    refine SGInv_foldl ?_ ss w h
    intro w1 s h1
    show SGInv (if s ∈ w1.gsprites g then w1 else linkAdd s g w1)
    by_cases hs : s ∈ w1.gsprites g
    · rw [if_pos hs]; exact h1
    · rw [if_neg hs]; exact SGInv_linkAdd h1 s g

theorem WFdicts_linkErase {w : World} (h : WFdicts w) (s g : Nat) :
    WFdicts (linkErase s g w) := by
  constructor
  · intro x
    show (Function.update w.sgroups s ((w.sgroups s).erase g) x).Nodup
    by_cases hx : x = s
    · subst hx; rw [Function.update_same]; exact (h.1 x).erase g
    · rw [Function.update_noteq hx]; exact h.1 x
  · intro x
    show (Function.update w.gsprites g ((w.gsprites g).erase s) x).Nodup
    by_cases hx : x = g
    · subst hx; rw [Function.update_same]; exact (h.2 x).erase s
    · rw [Function.update_noteq hx]; exact h.2 x

theorem SGInv_linkErase {w : World} (h : SGInv w) (s g : Nat) : SGInv (linkErase s g w) := by
  refine ⟨WFdicts_linkErase h.1 s g, fun s1 g1 => ?_⟩
  show g1 ∈ Function.update w.sgroups s ((w.sgroups s).erase g) s1
    ↔ s1 ∈ Function.update w.gsprites g ((w.gsprites g).erase s) g1
  by_cases hs : s1 = s <;> by_cases hg : g1 = g
  · subst hs; subst hg
    rw [Function.update_same, Function.update_same,
      (h.1.1 _).mem_erase_iff, (h.1.2 _).mem_erase_iff]
    simp
  · subst hs
    rw [Function.update_same, Function.update_noteq hg, (h.1.1 s1).mem_erase_iff]
    simp only [hg, ne_eq, not_false_iff, true_and]
    exact h.2 s1 g1
  · subst hg
    rw [Function.update_noteq hs, Function.update_same, (h.1.2 g1).mem_erase_iff]
    simp only [hs, ne_eq, not_false_iff, true_and]
    exact h.2 s1 g1
  · rw [Function.update_noteq hs, Function.update_noteq hg]
    exact h.2 s1 g1

theorem SGInv_spriteRemoveSeq {s : Nat} :
    ∀ (gs : List Nat) (w w' : World), SGInv w →
      Sprite.removeSeq s gs w = .ok w' → SGInv w' := by
  intro gs
  induction gs with
  | nil =>
    intro w w' h hok
    unfold Sprite.removeSeq at hok
    rw [Except.ok.injEq] at hok
    subst hok
    exact h
  | cons g rest ih =>
    intro w w' h hok
    unfold Sprite.removeSeq at hok
    by_cases hg : g ∈ w.sgroups s
    · rw [if_pos hg, unlink_eq ((h.2 s g).mp hg) hg] at hok
      exact ih (linkErase s g w) w' (SGInv_linkErase h s g) hok
    · rw [if_neg hg] at hok
      exact ih w w' h hok

theorem SGInv_spriteRemove {s : Nat} {a : PyArg} {w w' : World} (h : SGInv w)
    (hok : Sprite.remove s a w = .ok w') : SGInv w' := by
  cases a with
  | single g =>
    simp only [Sprite.remove] at hok
    by_cases hg : g ∈ w.sgroups s
    · rw [if_pos hg] at hok
      rcases hd : dictDel s (w.gsprites g) with _ | l <;> simp [hd] at hok
    · rw [if_neg hg, Except.ok.injEq] at hok
      subst hok
      exact h
  | seq gs => exact SGInv_spriteRemoveSeq gs w w' h hok

theorem killLoop_spec {s : Nat} :
    ∀ (gs : List Nat) (w : World), gs.Nodup → (∀ g ∈ gs, s ∈ w.gsprites g) →
      ∃ w', Sprite.killLoop s gs w = .ok w'
        ∧ w'.sgroups = w.sgroups
        ∧ ∀ g, w'.gsprites g = if g ∈ gs then (w.gsprites g).erase s else w.gsprites g := by
  intro gs
  induction gs with
  | nil =>
    intro w _ _
    exact ⟨w, rfl, rfl, fun g => by simp⟩
  | cons g rest ih =>
    intro w hnd hmem
    have hs : s ∈ w.gsprites g := hmem g (by simp)
    have hgr : g ∉ rest := (List.nodup_cons.mp hnd).1
    have hd : dictDel s (w.gsprites g) = some ((w.gsprites g).erase s) :=
      dictDel_eq_some.mpr ⟨hs, rfl⟩
    set w1 := setGS w g ((w.gsprites g).erase s) with hw1
    have hmem1 : ∀ g1 ∈ rest, s ∈ w1.gsprites g1 := by
      intro g1 hg1
      have hne : g1 ≠ g := fun he => hgr (he ▸ hg1)
      show s ∈ Function.update w.gsprites g ((w.gsprites g).erase s) g1
      rw [Function.update_noteq hne]
      exact hmem g1 (by simp [hg1])
    obtain ⟨w', hok, hsg, hgs⟩ := ih w1 (List.nodup_cons.mp hnd).2 hmem1
    refine ⟨w', ?_, hsg, ?_⟩
    · simp only [Sprite.killLoop, hd]
      exact hok
    · intro g1
      rcases eq_or_ne g1 g with rfl | hne
      · rw [hgs g1, if_neg hgr, if_pos (by simp)]
        show Function.update w.gsprites g1 ((w.gsprites g1).erase s) g1 = _
        rw [Function.update_same]
      · rw [hgs g1]
        have hup : w1.gsprites g1 = w.gsprites g1 := by
          show Function.update w.gsprites g ((w.gsprites g).erase s) g1 = _
          rw [Function.update_noteq hne]
        by_cases hr : g1 ∈ rest
        · rw [if_pos hr, if_pos (by simp [hr]), hup]
        · rw [if_neg hr, if_neg (by simp [hne, hr]), hup]

theorem spriteKill_spec {s : Nat} {w : World} (h : SGInv w) :
    ∃ w', Sprite.kill s w = .ok w'
      ∧ w'.sgroups s = []
      ∧ (∀ t, t ≠ s → w'.sgroups t = w.sgroups t)
      ∧ (∀ g, w'.gsprites g = (w.gsprites g).erase s)
      ∧ SGInv w' := by
  obtain ⟨w1, hok, hsg, hgs⟩ :=
    killLoop_spec (w.sgroups s) w (h.1.1 s) (fun g hg => (h.2 s g).mp hg)
  have hgs1 : ∀ g, w1.gsprites g = (w.gsprites g).erase s := by
    intro g
    rw [hgs g]
    by_cases hg : g ∈ w.sgroups s
    · rw [if_pos hg]
    · rw [if_neg hg, List.erase_of_not_mem (fun hc => hg ((h.2 s g).mpr hc))]
  refine ⟨setSG w1 s [], ?_, ?_, ?_, ?_, ?_, ?_⟩
  · simp only [Sprite.kill, hok]
  · show Function.update w1.sgroups s [] s = []
    rw [Function.update_same]
  · intro t ht
    show Function.update w1.sgroups s [] t = _
    rw [Function.update_noteq ht, hsg]
  · intro g
    exact hgs1 g
  · constructor
    · intro x
      show (Function.update w1.sgroups s [] x).Nodup
      rcases eq_or_ne x s with rfl | hx
      · rw [Function.update_same]; exact List.nodup_nil
      · rw [Function.update_noteq hx, hsg]; exact h.1.1 x
    · intro x
      show (w1.gsprites x).Nodup
      rw [hgs1 x]
      exact (h.1.2 x).erase s
  · intro s1 g1
    show g1 ∈ Function.update w1.sgroups s [] s1 ↔ s1 ∈ (setSG w1 s []).gsprites g1
    have hgsv : (setSG w1 s []).gsprites g1 = (w.gsprites g1).erase s := by
      rw [show (setSG w1 s []).gsprites = w1.gsprites from rfl, hgs1 g1]
    rw [hgsv]
    rcases eq_or_ne s1 s with rfl | hs1
    · rw [Function.update_same, (h.1.2 g1).mem_erase_iff]
      simp
    · rw [Function.update_noteq hs1, hsg, (h.1.2 g1).mem_erase_iff]
      simp only [hs1, ne_eq, not_false_iff, true_and]
      exact h.2 s1 g1

theorem SGInv_spriteKill {s : Nat} {w w' : World} (h : SGInv w)
    (hok : Sprite.kill s w = .ok w') : SGInv w' := by
  obtain ⟨w2, hok2, _, _, _, hinv⟩ := spriteKill_spec (s := s) h
  rw [hok2, Except.ok.injEq] at hok
  subst hok
  exact hinv

theorem emptyLoop_spec {g : Nat} :
    ∀ (ss : List Nat) (w : World), SGInv w → ss.Nodup → (∀ s ∈ ss, s ∈ w.gsprites g) →
      ∃ w', Group.emptyLoop g ss w = .ok w'
        ∧ SGInv w'
        ∧ (∀ x, x ∈ w'.gsprites g ↔ x ∈ w.gsprites g ∧ x ∉ ss) := by
  intro ss
  induction ss with
  | nil =>
    intro w h _ _
    exact ⟨w, rfl, h, fun x => by simp⟩
  | cons s rest ih =>
    intro w h hnd hmem
    have hs : s ∈ w.gsprites g := hmem s (by simp)
    have hg : g ∈ w.sgroups s := (h.2 s g).mpr hs
    have hrest : ∀ s1 ∈ rest, s1 ∈ (linkErase s g w).gsprites g := by
      intro s1 h1
      have hne : s1 ≠ s := fun he => (List.nodup_cons.mp hnd).1 (he ▸ h1)
      show s1 ∈ Function.update w.gsprites g ((w.gsprites g).erase s) g
      rw [Function.update_same, (h.1.2 g).mem_erase_iff]
      exact ⟨hne, hmem s1 (by simp [h1])⟩
    obtain ⟨w', hok, hinv, hmem'⟩ :=
      ih (linkErase s g w) (SGInv_linkErase h s g) (List.nodup_cons.mp hnd).2 hrest
    refine ⟨w', ?_, hinv, ?_⟩
    · simp only [Group.emptyLoop, unlink_eq hs hg]
      exact hok
    · intro x
      rw [hmem' x]
      have hle : (linkErase s g w).gsprites g = (w.gsprites g).erase s := by
        show Function.update w.gsprites g ((w.gsprites g).erase s) g = _
        rw [Function.update_same]
      rw [hle, (h.1.2 g).mem_erase_iff]
      constructor
      · rintro ⟨⟨hxs, hxg⟩, hxr⟩
        exact ⟨hxg, by simp [hxs, hxr]⟩
      · rintro ⟨hxg, hxr⟩
        simp only [List.mem_cons, not_or] at hxr
        exact ⟨⟨hxr.1, hxg⟩, hxr.2⟩

theorem SGInv_groupEmpty {g : Nat} {w w' : World} (h : SGInv w)
    (hok : Group.empty g w = .ok w') : SGInv w' := by
  obtain ⟨w1, hok1, hinv1, hmem1⟩ :=
    emptyLoop_spec (w.gsprites g) w h (h.1.2 g) (fun s hs => hs)
  rw [show Group.empty g w = .ok (setGS w1 g []) by simp only [Group.empty, hok1],
    Except.ok.injEq] at hok
  subst hok
  have hempty : ∀ x, x ∉ w1.gsprites g := fun x hx => ((hmem1 x).mp hx).2 ((hmem1 x).mp hx).1
  constructor
  · constructor
    · intro x
      exact hinv1.1.1 x
    · intro x
      show (Function.update w1.gsprites g [] x).Nodup
      rcases eq_or_ne x g with rfl | hx
      · rw [Function.update_same]; exact List.nodup_nil
      · rw [Function.update_noteq hx]; exact hinv1.1.2 x
  · intro s1 g1
    show g1 ∈ w1.sgroups s1 ↔ s1 ∈ Function.update w1.gsprites g [] g1
    rcases eq_or_ne g1 g with rfl | hg1
    · rw [Function.update_same]
      simp only [List.not_mem_nil, iff_false]
      exact fun hc => hempty s1 ((hinv1.2 s1 g1).mp hc)
    · rw [Function.update_noteq hg1]
      exact hinv1.2 s1 g1

theorem spritecollideLoop_false {hit : Nat → Bool} :
    ∀ (ss : List Nat) (w : World) (acc : List Nat),
      spritecollideLoop hit false ss w acc = .ok (acc ++ ss.filter hit, w) := by
  intro ss
  induction ss with
  | nil => intro w acc; simp [spritecollideLoop]
  | cons s rest ih =>
    intro w acc
    by_cases hs : hit s = true
    · simp only [spritecollideLoop, hs, if_true, Bool.false_eq_true, if_false,
        List.filter_cons_of_pos hs, ih]
      simp
    · rw [List.filter_cons_of_neg (by simpa using hs)]
      simp only [spritecollideLoop, hs]
      simp [ih]

theorem spritecollideLoop_true {hit : Nat → Bool} :
    ∀ (ss : List Nat) (w : World), SGInv w → ss.Nodup → ∀ acc : List Nat,
      ∃ w', spritecollideLoop hit true ss w acc = .ok (acc ++ ss.filter hit, w')
        ∧ SGInv w'
        ∧ (∀ t, t ∉ ss.filter hit → w'.sgroups t = w.sgroups t)
        ∧ (∀ s, s ∈ ss.filter hit → w'.sgroups s = []) := by
  intro ss
  induction ss with
  | nil =>
    intro w h _ acc
    exact ⟨w, by simp [spritecollideLoop], h, fun t _ => rfl, by simp⟩
  | cons s rest ih =>
    intro w h hnd acc
    by_cases hs : hit s = true
    · obtain ⟨w1, hok1, hs0, hsne, _, hinv1⟩ := spriteKill_spec (s := s) h
      obtain ⟨w', hok', hinv', hne', hkil'⟩ :=
        ih w1 hinv1 (List.nodup_cons.mp hnd).2 (acc ++ [s])
      have hsr : s ∉ rest := (List.nodup_cons.mp hnd).1
      refine ⟨w', ?_, hinv', ?_, ?_⟩
      · simp only [spritecollideLoop, hs, if_true, hok1, hok',
          List.filter_cons_of_pos hs]
        simp
      · intro t ht
        simp only [List.filter_cons_of_pos hs, List.mem_cons, not_or] at ht
        rw [hne' t ht.2, hsne t ht.1]
      · intro x hx
        simp only [List.filter_cons_of_pos hs, List.mem_cons] at hx
        rcases hx with rfl | hx
        · rw [hne' x (fun hc => hsr (List.mem_of_mem_filter hc)), hs0]
        · exact hkil' x hx
    · obtain ⟨w', hok', hinv', hne', hkil'⟩ := ih w h (List.nodup_cons.mp hnd).2 acc
      refine ⟨w', ?_, hinv', ?_, ?_⟩
      · rw [List.filter_cons_of_neg (by simpa using hs)]
        simp only [spritecollideLoop, hs]
        simpa using hok'
      · intro t ht
        rw [List.filter_cons_of_neg (by simpa using hs)] at ht
        exact hne' t ht
      · intro x hx
        rw [List.filter_cons_of_neg (by simpa using hs)] at hx
        exact hkil' x hx

theorem SGInv_init : SGInv World.init := by
  refine ⟨⟨fun x => List.nodup_nil, fun x => List.nodup_nil⟩, fun s g => ?_⟩
  simp [World.init]

theorem WFdicts_foldlAdd {step : World → Nat → World}
    (hf : ∀ w x, WFdicts w → WFdicts (step w x)) :
    ∀ (l : List Nat) (w : World), WFdicts w → WFdicts (l.foldl step w) := by
  intro l
  induction l with
  | nil => exact fun w h => h
  | cons x xs ih => exact fun w h => ih (step w x) (hf w x h)

/-- C1: for every Sprite and Group, the mutual-membership invariant (a
sprite's `__g` contains a group iff the group's `spritedict` contains the
sprite, together with the dict well-formedness every Python dict has) holds
in the initial world of empty constructors and is preserved by every listed
operation that completes, i.e. returns normally: `Sprite.add`,
`Sprite.remove`, `Sprite.kill`, `Group.add`, `Group.remove`, `Group.empty`.
(`Group.remove` and the single-group branch of `Sprite.remove` never
complete — they raise — so preservation is vacuous there.) -/
theorem sprite_group_mutual_membership_invariant :
    SGInv World.init
    ∧ (∀ s a w, SGInv w → SGInv (Sprite.add s a w))
    ∧ (∀ s a w w', SGInv w → Sprite.remove s a w = Except.ok w' → SGInv w')
    ∧ (∀ s w w', SGInv w → Sprite.kill s w = Except.ok w' → SGInv w')
    ∧ (∀ g a w w', SGInv w → Group.add g a w = Except.ok w' → SGInv w')
    ∧ (∀ g a w w', SGInv w → Group.remove g a w = Except.ok w' → SGInv w')
    ∧ (∀ g w w', SGInv w → Group.empty g w = Except.ok w' → SGInv w') := by
  refine ⟨SGInv_init, ?_, ?_, ?_, ?_, ?_, ?_⟩
  · exact fun s a w h => SGInv_spriteAdd h s a
  · exact fun s a w w' h hok => SGInv_spriteRemove h hok
  · exact fun s w w' h hok => SGInv_spriteKill h hok
  · exact fun g a w w' h hok => SGInv_groupAdd h g a hok
  · intro g a w w' _ hok
    exact absurd hok (by simp [Group.remove])
  · exact fun g w w' h hok => SGInv_groupEmpty h hok

/-- Witness for C1: concrete evaluation of the invariant through one add. -/
theorem sprite_group_mutual_membership_invariant_witness :
    SGInv (Sprite.add 0 (PyArg.single 1) World.init) :=
  sprite_group_mutual_membership_invariant.2.1 0 (PyArg.single 1) World.init
    sprite_group_mutual_membership_invariant.1

/-- C2 (evidence of the code bug): with sprite 0 a member of group 1,
`Sprite.remove` on the single group raises `UnboundLocalError` (the local
`g` in `del self.__g[g]` is never assigned in that branch), and the world it
leaves behind has the membership removed on the group side only: group 1's
spritedict no longer holds sprite 0, while sprite 0's `__g` still holds
group 1. -/
theorem sprite_remove_single_group_raises :
    Sprite.remove 0 (PyArg.single 1) (linkAdd 0 1 World.init)
      = Except.error (PyErr.unboundLocalError, setGS (linkAdd 0 1 World.init) 1 [])
    ∧ (setGS (linkAdd 0 1 World.init) 1 []).gsprites 1 = []
    ∧ (setGS (linkAdd 0 1 World.init) 1 []).sgroups 0 = [1] := by
  refine ⟨?_, ?_, ?_⟩ <;> rfl

/-- C3 (evidence of the code bug): `Group.remove` raises
`UnboundLocalError` on every call, whatever the argument, leaving the world
untouched: `hasattr(sprites, '_spritegroup')` reads the local `sprites`
before its only assignment. -/
theorem group_remove_always_raises (g : Nat) (a : PyArg) (w : World) :
    Group.remove g a w = Except.error (PyErr.unboundLocalError, w) := rfl

/-- C4 (evidence of the code bug): `Group.has` raises `UnboundLocalError`
on every call and never returns a truth value, for the same unassigned
local `sprites`. -/
theorem group_has_always_raises (g : Nat) (a : PyArg) (w : World) :
    Group.has g a w = Except.error PyErr.unboundLocalError := rfl

/-- C5: the add paths are idempotent set insertions.  Adding a sprite to a
group it already belongs to leaves both dictionaries unchanged (for the
single-group and sequence forms of `Sprite.add` and the sequence form of
`Group.add`; the single-sprite form of `Group.add` raises `TypeError`
before touching any state, so it too changes nothing), and every add
preserves the no-duplicate property of both dictionaries, so a group holds
each sprite at most once and a sprite records each group at most once. -/
theorem add_is_idempotent_insertion :
    (∀ s g w, g ∈ w.sgroups s → Sprite.add s (PyArg.single g) w = w)
    ∧ (∀ s g w, g ∈ w.sgroups s → Sprite.add s (PyArg.seq [g]) w = w)
    ∧ (∀ g s w, s ∈ w.gsprites g → Group.add g (PyArg.seq [s]) w = Except.ok w)
    ∧ (∀ g s w, Group.add g (PyArg.single s) w = Except.error (PyErr.typeError, w))
    ∧ (∀ s a w, WFdicts w → WFdicts (Sprite.add s a w))
    ∧ (∀ g ss w w', WFdicts w → Group.add g (PyArg.seq ss) w = Except.ok w' → WFdicts w') := by
  refine ⟨?_, ?_, ?_, ?_, ?_, ?_⟩
  · intro s g w h
    simp [Sprite.add, h]
  · intro s g w h
    simp [Sprite.add, h]
  · intro g s w h
    simp [Group.add, h]
  · intro g s w
    rfl
  · intro s a w h
    cases a with
    | single g =>
      by_cases hg : g ∈ w.sgroups s
      · simpa [Sprite.add, hg] using h
      · simpa [Sprite.add, hg] using WFdicts_linkAdd h s g
    | seq gs =>
      simp only [Sprite.add]
      refine WFdicts_foldlAdd ?_ gs w h
      intro w1 g h1
      show WFdicts (if g ∈ w1.sgroups s then w1 else linkAdd s g w1)
      by_cases hg : g ∈ w1.sgroups s
      · rw [if_pos hg]; exact h1
      · rw [if_neg hg]; exact WFdicts_linkAdd h1 s g
  · intro g ss w w' h hok
    simp only [Group.add, Except.ok.injEq] at hok
    subst hok
    refine WFdicts_foldlAdd ?_ ss w h
    intro w1 s h1
    show WFdicts (if s ∈ w1.gsprites g then w1 else linkAdd s g w1)
    by_cases hs : s ∈ w1.gsprites g
    · rw [if_pos hs]; exact h1
    · rw [if_neg hs]; exact WFdicts_linkAdd h1 s g

/-- Witness for C5: membership discharged on a concrete world. -/
theorem add_is_idempotent_insertion_witness :
    Sprite.add 0 (PyArg.single 1) (linkAdd 0 1 World.init) = linkAdd 0 1 World.init
    ∧ WFdicts (Sprite.add 0 (PyArg.seq [1, 1]) World.init) :=
  ⟨add_is_idempotent_insertion.1 0 1 (linkAdd 0 1 World.init) (by decide),
   add_is_idempotent_insertion.2.2.2.2.1 0 (PyArg.seq [1, 1]) World.init SGInv_init.1⟩

/-- C9: under the reachable-state invariant, `spritecollide` returns
exactly the sprites of the group whose rect collides with the given
sprite's rect (in group-dictionary order).  With `dokill` false the world
is returned unchanged; with `dokill` true the call completes and every
returned sprite has been removed from all of its groups: its `alive()`
count is 0 and no group's spritedict holds it. -/
theorem spritecollide_correct {R : Type} (rect : Nat → R) (colliderect : R → R → Bool)
    (sp g : Nat) (w : World) (h : SGInv w) :
    spritecollide rect colliderect sp g false w
      = Except.ok ((w.gsprites g).filter (fun s => colliderect (rect sp) (rect s)), w)
    ∧ ∃ w', spritecollide rect colliderect sp g true w
        = Except.ok ((w.gsprites g).filter (fun s => colliderect (rect sp) (rect s)), w')
      ∧ SGInv w'
      ∧ (∀ s, s ∈ (w.gsprites g).filter (fun s => colliderect (rect sp) (rect s)) →
          Sprite.alive s w' = 0 ∧ ∀ g2, s ∉ w'.gsprites g2) := by
  constructor
  · show spritecollideLoop _ false (w.gsprites g) w [] = _
    rw [spritecollideLoop_false]
    simp
  · obtain ⟨w', hok, hinv, hne, hkil⟩ :=
      @spritecollideLoop_true (fun s => colliderect (rect sp) (rect s))
        (w.gsprites g) w h (h.1.2 g) []
    refine ⟨w', by simpa [spritecollide] using hok, hinv, ?_⟩
    intro s hs
    have h0 : w'.sgroups s = [] := hkil s hs
    refine ⟨by simp [Sprite.alive, h0], fun g2 hc => ?_⟩
    have hmem := (hinv.2 s g2).mpr hc
    rw [h0] at hmem
    exact absurd hmem (List.not_mem_nil g2)

/-- Witness for C9: a concrete collision query on a one-sprite group. -/
theorem spritecollide_correct_witness :
    spritecollide (fun _ : Nat => 0) (fun _ _ : Nat => true) 0 1 false (linkAdd 0 1 World.init)
      = Except.ok ([0], linkAdd 0 1 World.init) := by
  have h1 := (spritecollide_correct (fun _ : Nat => (0 : Nat)) (fun _ _ => true) 0 1
    (linkAdd 0 1 World.init) (SGInv_linkAdd SGInv_init 0 1)).1
  simpa using h1

/-- The value of the external constant `SDL_BYTEORDER`: the build is either
little-endian (`SDL_LIL_ENDIAN`) or big-endian. -/
inductive ByteOrder where
  | lil
  | big
  deriving DecidableEq

/-- An SDL surface as used by src/pygame/surfarray.py: dimensions, the
format's `BytesPerPixel`, the row `pitch` in bytes and the raw pixel buffer
(`surf.pixels.to_string()`), one `Nat` per byte. -/
structure Surface where
  w : Nat
  h : Nat
  pitch : Nat
  bpp : Nat
  pixels : List Nat
  deriving DecidableEq

/-- The well-formedness SDL guarantees for a surface whose pixel buffer can
be read at all: positive dimensions (a zero-area SDL surface has a NULL
pixel pointer), a pitch of at least `w * BytesPerPixel`, and a buffer of
exactly `pitch * h` bytes. -/
def Surface.WF (s : Surface) : Prop :=
  1 ≤ s.w ∧ 1 ≤ s.h ∧ s.w * s.bpp ≤ s.pitch ∧ s.pixels.length = s.pitch * s.h

/-- The abstract array object produced by `array2d` and consumed by
`blit_array`.  The module's default array package is Numeric, whose arrays
are contiguous buffers; `data` is that backing buffer, `tostring()` returns
it unchanged, and `shape`, `strides` (written behind Numeric's back by the
ctypes hack) and the element size are carried alongside. -/
structure NArray where
  data : List Nat
  shape : List Nat
  strides : List Nat
  itemsize : Nat
  deriving DecidableEq

/-- The worker behind `chunksExact`: accumulate bytes until a full chunk of
`n` is complete, emit it, and drop a trailing incomplete chunk, exactly as
`re.findall` of a pattern of `n` DOTALL dots scans a string. -/
def chunksGo (n : Nat) (acc : List Nat) : List Nat → List (List Nat)
  | [] => []
  | x :: xs =>
    if (acc ++ [x]).length = n then (acc ++ [x]) :: chunksGo n [] xs
    else chunksGo n (acc ++ [x]) xs

/-- `re.findall('.' * n, data, DOTALL)`: the consecutive complete chunks of
`n` bytes, the remainder dropped. -/
def chunksExact (n : Nat) (l : List Nat) : List (List Nat) :=
  chunksGo n [] l

/-- `sep.join(parts)`: the parts with `sep` between consecutive parts. -/
def sepJoin (sep : List Nat) : List (List Nat) → List Nat
  | [] => []
  | [t] => t
  | t :: ts => t ++ sep ++ sepJoin sep ts

/-- The pitch-trimming step of `array2d` (src/pygame/surfarray.py:130):
when `pitchdiff = pitch - w * bpp` is positive, match rows of `pitch` bytes
and keep the first `w * bpp` bytes of each. -/
def trimPitch (surf : Surface) (data : List Nat) : List Nat :=
  if 0 < surf.pitch - surf.w * surf.bpp then
    ((chunksExact surf.pitch data).map (fun r => r.take (surf.w * surf.bpp))).flatten
  else data

/-- The element size `array2d` ends up with: a 3-bytes-per-pixel surface is
widened to 4, every other supported depth keeps its size. -/
def effBpp (bpp : Nat) : Nat :=
  if bpp = 3 then 4 else bpp

/-- The widening step of `array2d` for 3-bytes-per-pixel surfaces
(src/pygame/surfarray.py:141): split into 3-byte triplets, join the
triplets with a zero byte, then append one more zero byte on a
little-endian build or prepend it on a big-endian build. -/
def widen3 (bo : ByteOrder) (data : List Nat) : List Nat :=
  match bo with
  | .lil => sepJoin [0] (chunksExact 3 data) ++ [0]
  | .big => [0] ++ sepJoin [0] (chunksExact 3 data)

/-- `array2d(surface)` (src/pygame/surfarray.py:101): reject unsupported
depths with `ValueError`, copy the pixel bytes, strip the row pitch
padding, widen 3-byte pixels to 4 bytes, check the `assert
len(data) == bpp * surf.w * surf.h` (an `AssertionError` when it fails),
and build the array with shape `(w, h)` and the fake strides
`(bpp, bpp * w)`. -/
def array2d (bo : ByteOrder) (surf : Surface) : Except PyErr NArray :=
  if surf.bpp = 0 ∨ 4 < surf.bpp then .error .valueError
  else
    let data0 := trimPitch surf surf.pixels
    let data1 := if surf.bpp = 3 then widen3 bo data0 else data0
    let b := effBpp surf.bpp
    if data1.length = b * surf.w * surf.h then
      .ok { data := data1, shape := [surf.w, surf.h], strides := [b, b * surf.w], itemsize := b }
    else .error .assertionError

/-- The pixel-trimming step of `blit_array` (src/pygame/surfarray.py:371)
for `itemsize > bpp`: keep the `bpp` least significant bytes of each
element (the leading bytes on little-endian, the trailing on big-endian). -/
def trimBytes (bo : ByteOrder) (item bpp : Nat) (data : List Nat) : List Nat :=
  ((chunksExact item data).map
    (fun c => match bo with
      | .lil => c.take bpp
      | .big => c.drop (item - bpp))).flatten

/-- The pixel-padding step of `blit_array` (src/pygame/surfarray.py:379)
for `itemsize < bpp`: join the elements with `bpp - itemsize` zero bytes
and add one more pad at the little-endian end. -/
def padBytes (bo : ByteOrder) (item bpp : Nat) (data : List Nat) : List Nat :=
  let pad := List.replicate (bpp - item) 0
  match bo with
  | .lil => sepJoin pad (chunksExact item data) ++ pad
  | .big => pad ++ sepJoin pad (chunksExact item data)

/-- The pitch-padding step of `blit_array` (src/pygame/surfarray.py:391):
join the rows of `w * bpp` bytes with `pitchdiff` zero bytes and append one
trailing pad. -/
def padPitch (surf : Surface) (data : List Nat) : List Nat :=
  let pad := List.replicate (surf.pitch - surf.w * surf.bpp) 0
  sepJoin pad (chunksExact (surf.w * surf.bpp) data) ++ pad

/-- `blit_array(surface, array)` (src/pygame/surfarray.py:298): validate the
shape (`ValueError` unless 2D or 3D with last dimension 3), refuse every 3D
array that passes that check with `NotImplementedError`, validate the
depth and the dimensions (`ValueError`), then take `array.tostring()` (the
raw Numeric buffer), adjust the element width and the row pitch, and
`memmove` the result over the start of the surface's pixel buffer.  Every
error is raised before the `memmove`, so the surface is returned unchanged
alongside it. -/
def blit_array (bo : ByteOrder) (surf : Surface) (a : NArray) : Surface × Option PyErr :=
  match a.shape with
  | [d0, d1] =>
    if surf.bpp = 0 ∨ 4 < surf.bpp then (surf, some .valueError)
    else if ¬(surf.w = d0 ∧ surf.h = d1) then (surf, some .valueError)
    else
      let data0 := a.data
      let data1 :=
        if surf.bpp < a.itemsize then trimBytes bo a.itemsize surf.bpp data0
        else if a.itemsize < surf.bpp then padBytes bo a.itemsize surf.bpp data0
        else data0
      let data2 := if 0 < surf.pitch - surf.w * surf.bpp then padPitch surf data1 else data1
      ({ surf with pixels := data2 ++ surf.pixels.drop data2.length }, none)
  | [_, _, d2] => if d2 = 3 then (surf, some .notImplementedError) else (surf, some .valueError)
  | _ => (surf, some .valueError)

/-- The pixel bytes of a surface with the row pitch padding excluded: for
each row of `pitch` bytes, its first `w * bpp` bytes. -/
def pixelBytes (surf : Surface) : List (List Nat) :=
  (chunksExact surf.pitch surf.pixels).map (fun r => r.take (surf.w * surf.bpp))

/-- `blit_array(surface, array2d(surface))`: the round trip of C7. -/
def roundTrip (bo : ByteOrder) (surf : Surface) : Surface × Option PyErr :=
  match array2d bo surf with
  | .error e => (surf, some e)
  | .ok ar => blit_array bo surf ar

theorem chunksGo_cons (n x : Nat) (acc xs : List Nat) :
    chunksGo n acc (x :: xs)
      = if (acc ++ [x]).length = n then (acc ++ [x]) :: chunksGo n [] xs
        else chunksGo n (acc ++ [x]) xs := rfl

theorem chunksGo_emit {n : Nat} :
    ∀ (r acc t : List Nat), (acc ++ r).length = n → r ≠ [] →
      chunksGo n acc (r ++ t) = (acc ++ r) :: chunksGo n [] t := by
  intro r
  induction r with
  | nil => intro acc t _ hne; exact absurd rfl hne
  | cons x r' ih =>
    intro acc t hlen _
    cases r' with
    | nil =>
      show chunksGo n acc (x :: t) = _
      rw [chunksGo_cons, if_pos (by simpa using hlen)]
    | cons y r2 =>
      show chunksGo n acc (x :: ((y :: r2) ++ t)) = _
      have hcond : ¬((acc ++ [x]).length = n) := by
        simp only [List.length_append, List.length_cons, List.length_nil] at hlen ⊢
        omega
      rw [chunksGo_cons, if_neg hcond, ih (acc ++ [x]) t (by simpa using hlen) (by simp)]
      simp

theorem chunksExact_cons {n : Nat} {r : List Nat} (t : List Nat) (hr : r.length = n)
    (hn : 1 ≤ n) : chunksExact n (r ++ t) = r :: chunksExact n t := by
  have hne : r ≠ [] := by
    intro hc
    subst hc
    simp only [List.length_nil] at hr
    omega
  simpa [chunksExact] using chunksGo_emit r [] t (by simpa using hr) hne

theorem chunksExact_nil (n : Nat) : chunksExact n [] = [] := rfl

theorem chunksExact_full {n : Nat} (hn : 1 ≤ n) :
    ∀ (k : Nat) (l : List Nat), l.length = n * k →
      (chunksExact n l).flatten = l
      ∧ (∀ r ∈ chunksExact n l, r.length = n)
      ∧ (chunksExact n l).length = k := by
  intro k
  induction k with
  | zero =>
    intro l hl
    have : l = [] := List.length_eq_zero.mp (by simpa using hl)
    subst this
    simp [chunksExact_nil]
  | succ k ih =>
    intro l hl
    have hmul : n * (k + 1) = n * k + n := by ring
    have hnl : n ≤ l.length := by omega
    have htake : (l.take n).length = n := by
      rw [List.length_take]
      omega
    have hdrop : (l.drop n).length = n * k := by
      rw [List.length_drop]
      omega
    have hsplit : l = l.take n ++ l.drop n := (List.take_append_drop n l).symm
    obtain ⟨ihf, ihm, ihl⟩ := ih (l.drop n) hdrop
    have hch : chunksExact n l = l.take n :: chunksExact n (l.drop n) := by
      conv_lhs => rw [hsplit]
      exact chunksExact_cons (l.drop n) htake hn
    refine ⟨?_, ?_, ?_⟩
    · rw [hch, List.flatten_cons, ihf]
      exact hsplit.symm
    · intro r hr
      rw [hch] at hr
      rcases List.mem_cons.mp hr with rfl | hr2
      · exact htake
      · exact ihm r hr2
    · rw [hch, List.length_cons, ihl]

theorem chunksExact_flatten_uniform {n : Nat} (hn : 1 ≤ n) :
    ∀ L : List (List Nat), (∀ r ∈ L, r.length = n) → chunksExact n L.flatten = L := by
  intro L
  induction L with
  | nil => intro _; simp [chunksExact_nil]
  | cons r L' ih =>
    intro hL
    rw [List.flatten_cons, chunksExact_cons L'.flatten (hL r (by simp)) hn,
      ih (fun r2 h2 => hL r2 (by simp [h2]))]

theorem flatten_length_uniform {n : Nat} :
    ∀ L : List (List Nat), (∀ r ∈ L, r.length = n) → L.flatten.length = L.length * n := by
  intro L
  induction L with
  | nil => intro _; simp
  | cons r L' ih =>
    intro hL
    rw [List.flatten_cons, List.length_append, hL r (by simp),
      ih (fun r2 h2 => hL r2 (by simp [h2])), List.length_cons]
    ring

theorem sepJoin_append_pad {pad : List Nat} :
    ∀ ts : List (List Nat), ts ≠ [] →
      sepJoin pad ts ++ pad = (ts.map (fun t => t ++ pad)).flatten := by
  intro ts
  induction ts with
  | nil => intro h; exact absurd rfl h
  | cons t ts' ih =>
    intro _
    cases ts' with
    | nil => simp [sepJoin]
    | cons t2 ts2 =>
      show (t ++ pad ++ sepJoin pad (t2 :: ts2)) ++ pad = _
      rw [List.map_cons, List.flatten_cons, ← ih (by simp)]
      simp

theorem prepend_sepJoin {pad : List Nat} :
    ∀ ts : List (List Nat), ts ≠ [] →
      pad ++ sepJoin pad ts = (ts.map (fun t => pad ++ t)).flatten := by
  intro ts
  induction ts with
  | nil => intro h; exact absurd rfl h
  | cons t ts' ih =>
    intro _
    cases ts' with
    | nil => simp [sepJoin]
    | cons t2 ts2 =>
      show pad ++ (t ++ pad ++ sepJoin pad (t2 :: ts2)) = _
      rw [List.map_cons, List.flatten_cons, ← ih (by simp)]
      simp

theorem map_eq_self_of_mem {f : List Nat → List Nat} :
    ∀ L : List (List Nat), (∀ r ∈ L, f r = r) → L.map f = L := by
  intro L
  induction L with
  | nil => intro _; rfl
  | cons r L' ih =>
    intro h
    rw [List.map_cons, h r (by simp), ih (fun r2 h2 => h r2 (by simp [h2]))]

/-- The data bytes `array2d` is specified to produce: the pixel bytes of
the surface in row order with the pitch padding removed, and, for a
3-bytes-per-pixel surface, one zero byte added per pixel at the most
significant end (appended on a little-endian build, prepended on a
big-endian one). -/
def a2data (bo : ByteOrder) (surf : Surface) : List Nat :=
  if surf.bpp = 3 then
    ((chunksExact 3 (pixelBytes surf).flatten).map
      (fun t => match bo with | ByteOrder.lil => t ++ [0] | ByteOrder.big => [0] ++ t)).flatten
  else (pixelBytes surf).flatten

theorem pixelBytes_facts {surf : Surface} (hwf : surf.WF) (hb : 1 ≤ surf.bpp) :
    (pixelBytes surf).length = surf.h
    ∧ (∀ r ∈ pixelBytes surf, r.length = surf.w * surf.bpp)
    ∧ trimPitch surf surf.pixels = (pixelBytes surf).flatten := by
  obtain ⟨hw, hh, hwp, hlen⟩ := hwf
  have hW : 1 ≤ surf.w * surf.bpp := Nat.mul_pos hw hb
  have hP : 1 ≤ surf.pitch := le_trans hW hwp
  obtain ⟨hflat, hmem, hcount⟩ :=
    chunksExact_full hP surf.h surf.pixels (by rw [hlen])
  refine ⟨?_, ?_, ?_⟩
  · rw [pixelBytes, List.length_map, hcount]
  · intro r hr
    obtain ⟨r0, hr0, rfl⟩ := List.mem_map.mp hr
    rw [List.length_take, hmem r0 hr0]
    omega
  · unfold trimPitch pixelBytes
    by_cases hd : 0 < surf.pitch - surf.w * surf.bpp
    · rw [if_pos hd]
    · rw [if_neg hd]
      have hPW : surf.pitch = surf.w * surf.bpp := by omega
      rw [map_eq_self_of_mem (chunksExact surf.pitch surf.pixels)
        (fun r hr => List.take_of_length_le (by rw [hmem r hr, hPW])), hflat]

theorem array2d_ok {surf : Surface} (bo : ByteOrder) (hwf : surf.WF)
    (hb1 : 1 ≤ surf.bpp) (hb4 : surf.bpp ≤ 4) :
    array2d bo surf = Except.ok
      { data := a2data bo surf, shape := [surf.w, surf.h],
        strides := [effBpp surf.bpp, effBpp surf.bpp * surf.w],
        itemsize := effBpp surf.bpp } := by
  obtain ⟨hpc, hpm, hpt⟩ := pixelBytes_facts hwf hb1
  have hflatlen : (pixelBytes surf).flatten.length = surf.h * (surf.w * surf.bpp) := by
    rw [flatten_length_uniform (pixelBytes surf) hpm, hpc]
  have hnz : ¬(surf.bpp = 0 ∨ 4 < surf.bpp) := by omega
  unfold array2d
  rw [if_neg hnz, hpt]
  dsimp only
  by_cases h3 : surf.bpp = 3
  · obtain ⟨htf, htm, htc⟩ :=
      chunksExact_full (n := 3) (by omega) (surf.w * surf.h) (pixelBytes surf).flatten
        (by rw [hflatlen, h3]; ring)
    have htne : chunksExact 3 (pixelBytes surf).flatten ≠ [] := by
      have : 1 ≤ surf.w * surf.h := Nat.mul_pos hwf.1 hwf.2.1
      intro hc
      rw [hc] at htc
      simp only [List.length_nil] at htc
      omega
    have hwid : widen3 bo (pixelBytes surf).flatten = a2data bo surf := by
      unfold widen3 a2data
      rw [if_pos h3]
      cases bo with
      | lil =>
        rw [sepJoin_append_pad (chunksExact 3 (pixelBytes surf).flatten) htne]
      | big =>
        rw [prepend_sepJoin (chunksExact 3 (pixelBytes surf).flatten) htne]
    have hlen1 : (a2data bo surf).length = effBpp surf.bpp * surf.w * surf.h := by
      unfold a2data
      rw [if_pos h3, flatten_length_uniform (n := 4), List.length_map, htc, effBpp, if_pos h3]
      · ring
      · intro r hr
        obtain ⟨t, ht, rfl⟩ := List.mem_map.mp hr
        cases bo <;> simp [htm t ht]
    rw [if_pos h3, hwid, if_pos hlen1]
  · have hlen1 : (pixelBytes surf).flatten.length = effBpp surf.bpp * surf.w * surf.h := by
      rw [hflatlen, effBpp, if_neg h3]
      ring
    rw [if_neg h3, if_pos hlen1]
    unfold a2data
    rw [if_neg h3]

theorem a2data_length {surf : Surface} (bo : ByteOrder) (hwf : surf.WF)
    (hb1 : 1 ≤ surf.bpp) :
    (a2data bo surf).length = effBpp surf.bpp * surf.w * surf.h := by
  obtain ⟨hpc, hpm, _⟩ := pixelBytes_facts hwf hb1
  have hflatlen : (pixelBytes surf).flatten.length = surf.h * (surf.w * surf.bpp) := by
    rw [flatten_length_uniform (pixelBytes surf) hpm, hpc]
  by_cases h3 : surf.bpp = 3
  · obtain ⟨_, htm, htc⟩ :=
      chunksExact_full (n := 3) (by omega) (surf.w * surf.h) (pixelBytes surf).flatten
        (by rw [hflatlen, h3]; ring)
    unfold a2data
    rw [if_pos h3, flatten_length_uniform (n := 4), List.length_map, htc, effBpp, if_pos h3]
    · ring
    · intro r hr
      obtain ⟨t, ht, rfl⟩ := List.mem_map.mp hr
      cases bo <;> simp [htm t ht]
  · unfold a2data
    rw [if_neg h3, hflatlen, effBpp, if_neg h3]
    ring

theorem roundTrip_spec {surf : Surface} (bo : ByteOrder) (hwf : surf.WF)
    (hb : surf.bpp = 1 ∨ surf.bpp = 2 ∨ surf.bpp = 4) :
    ∃ px, roundTrip bo surf = ({ surf with pixels := px }, none)
      ∧ pixelBytes { surf with pixels := px } = pixelBytes surf := by
  have hb1 : 1 ≤ surf.bpp := by rcases hb with h | h | h <;> omega
  have hb4 : surf.bpp ≤ 4 := by rcases hb with h | h | h <;> omega
  have h3 : ¬surf.bpp = 3 := by rcases hb with h | h | h <;> omega
  obtain ⟨hpc, hpm, _⟩ := pixelBytes_facts hwf hb1
  have hW : 1 ≤ surf.w * surf.bpp := Nat.mul_pos hwf.1 hb1
  have hP : 1 ≤ surf.pitch := le_trans hW hwf.2.2.1
  have hflatlen : (pixelBytes surf).flatten.length = surf.h * (surf.w * surf.bpp) := by
    rw [flatten_length_uniform (pixelBytes surf) hpm, hpc]
  have hnz : ¬(surf.bpp = 0 ∨ 4 < surf.bpp) := by omega
  have hda : a2data bo surf = (pixelBytes surf).flatten := by
    unfold a2data
    rw [if_neg h3]
  have heff : effBpp surf.bpp = surf.bpp := by
    unfold effBpp
    rw [if_neg h3]
  unfold roundTrip
  rw [array2d_ok bo hwf hb1 hb4]
  show ∃ px, blit_array bo surf _ = _ ∧ _
  unfold blit_array
  dsimp only
  rw [if_neg hnz, if_neg (by simp), heff, hda, if_neg (lt_irrefl surf.bpp),
    if_neg (lt_irrefl surf.bpp)]
  by_cases hpd : 0 < surf.pitch - surf.w * surf.bpp
  · rw [if_pos hpd]
    have hchunks : chunksExact (surf.w * surf.bpp) (pixelBytes surf).flatten
        = pixelBytes surf :=
      chunksExact_flatten_uniform hW (pixelBytes surf) hpm
    have hne : pixelBytes surf ≠ [] := by
      have hh : 1 ≤ surf.h := hwf.2.1
      intro hc
      rw [hc] at hpc
      simp only [List.length_nil] at hpc
      omega
    have hpad : padPitch surf (pixelBytes surf).flatten
        = ((pixelBytes surf).map
            (fun r => r ++ List.replicate (surf.pitch - surf.w * surf.bpp) 0)).flatten := by
      unfold padPitch
      rw [hchunks]
      exact sepJoin_append_pad (pixelBytes surf) hne
    have hrowlen : ∀ r ∈ (pixelBytes surf).map
        (fun r => r ++ List.replicate (surf.pitch - surf.w * surf.bpp) 0),
        r.length = surf.pitch := by
      intro r hr
      obtain ⟨r0, hr0, rfl⟩ := List.mem_map.mp hr
      rw [List.length_append, hpm r0 hr0, List.length_replicate]
      omega
    have hlen2 : (padPitch surf (pixelBytes surf).flatten).length = surf.h * surf.pitch := by
      rw [hpad, flatten_length_uniform _ hrowlen, List.length_map, hpc]
    have hdrop : surf.pixels.drop (padPitch surf (pixelBytes surf).flatten).length = [] := by
      apply List.drop_eq_nil_of_le
      rw [hlen2, hwf.2.2.2]
      exact Nat.le_of_eq (Nat.mul_comm surf.pitch surf.h)
    refine ⟨padPitch surf (pixelBytes surf).flatten ++ [], ?_, ?_⟩
    · rw [hdrop]
    · rw [List.append_nil]
      show (chunksExact surf.pitch (padPitch surf (pixelBytes surf).flatten)).map
          (fun r => r.take (surf.w * surf.bpp)) = pixelBytes surf
      rw [hpad, chunksExact_flatten_uniform hP _ hrowlen, List.map_map]
      apply map_eq_self_of_mem
      intro r hr
      show (r ++ List.replicate (surf.pitch - surf.w * surf.bpp) 0).take (surf.w * surf.bpp) = r
      rw [show surf.w * surf.bpp = r.length from (hpm r hr).symm]
      exact List.take_left r _
  · rw [if_neg hpd]
    have hPW : surf.pitch = surf.w * surf.bpp := by
      have := hwf.2.2.1
      omega
    have hdrop : surf.pixels.drop (pixelBytes surf).flatten.length = [] := by
      apply List.drop_eq_nil_of_le
      rw [hflatlen, hwf.2.2.2, hPW]
      exact Nat.le_of_eq (Nat.mul_comm (surf.w * surf.bpp) surf.h)
    refine ⟨(pixelBytes surf).flatten ++ [], ?_, ?_⟩
    · rw [hdrop]
    · rw [List.append_nil]
      show (chunksExact surf.pitch (pixelBytes surf).flatten).map
          (fun r => r.take (surf.w * surf.bpp)) = pixelBytes surf
      rw [hPW, chunksExact_flatten_uniform hW (pixelBytes surf) hpm]
      apply map_eq_self_of_mem
      intro r hr
      exact List.take_of_length_le (le_of_eq (hpm r hr))

/-- C6: for every well-formed surface, `array2d` rejects a `BytesPerPixel`
of 0 or more than 4 with `ValueError`; for a supported depth it returns an
array of shape `(w, h)` with strides `(bpp, bpp * w)` (in the widened
element size), whose backing data is exactly the surface's pixel bytes with
the row pitch padding removed — `effBpp bpp * w * h` bytes — and, for a
3-bytes-per-pixel surface, with one zero byte inserted per pixel at the
most significant end (appended on little-endian, prepended on big-endian),
as recorded by `a2data`. -/
theorem array2d_shape_strides_and_data (bo : ByteOrder) (surf : Surface) (hwf : surf.WF) :
    ((surf.bpp = 0 ∨ 4 < surf.bpp) → array2d bo surf = Except.error PyErr.valueError)
    ∧ (1 ≤ surf.bpp → surf.bpp ≤ 4 →
        array2d bo surf = Except.ok
          { data := a2data bo surf, shape := [surf.w, surf.h],
            strides := [effBpp surf.bpp, effBpp surf.bpp * surf.w],
            itemsize := effBpp surf.bpp })
    ∧ (1 ≤ surf.bpp →
        (a2data bo surf).length = effBpp surf.bpp * surf.w * surf.h) := by
  refine ⟨?_, ?_, ?_⟩
  · intro h
    unfold array2d
    rw [if_pos h]
  · intro h1 h4
    exact array2d_ok bo hwf h1 h4
  · intro h1
    exact a2data_length bo hwf h1

/-- Witness for C6: a 1x1 surface with 3 bytes per pixel and a pitch of 4;
the padding byte 99 is stripped and the pixel is widened to 4 bytes. -/
theorem array2d_shape_strides_and_data_witness :
    array2d ByteOrder.lil ⟨1, 1, 4, 3, [10, 20, 30, 99]⟩
      = Except.ok
        { data := [10, 20, 30, 0], shape := [1, 1], strides := [4, 4], itemsize := 4 } := by
  have h := (array2d_shape_strides_and_data ByteOrder.lil ⟨1, 1, 4, 3, [10, 20, 30, 99]⟩
    (by constructor <;> simp)).2.1 (by decide) (by decide)
  rw [h]
  rfl

/-- C7: for every well-formed surface of 1, 2 or 4 bytes per pixel,
`blit_array(surface, array2d(surface))` completes without error and writes
back exactly the surface's pixel bytes: the round trip is the identity on
the pixel data (rows with pitch padding excluded) and leaves the surface's
dimensions, pitch and depth unchanged. -/
theorem array2d_blit_array_round_trip (bo : ByteOrder) (surf : Surface) (hwf : surf.WF)
    (hb : surf.bpp = 1 ∨ surf.bpp = 2 ∨ surf.bpp = 4) :
    (roundTrip bo surf).2 = none
    ∧ pixelBytes (roundTrip bo surf).1 = pixelBytes surf
    ∧ (roundTrip bo surf).1.w = surf.w
    ∧ (roundTrip bo surf).1.h = surf.h
    ∧ (roundTrip bo surf).1.pitch = surf.pitch
    ∧ (roundTrip bo surf).1.bpp = surf.bpp := by
  obtain ⟨px, heq, hpix⟩ := roundTrip_spec bo hwf hb
  rw [heq]
  exact ⟨rfl, hpix, rfl, rfl, rfl, rfl⟩

/-- Witness for C7: a 2x1 one-byte-per-pixel surface with pitch 3; the
pixel bytes 5, 6 survive the round trip (the padding byte 9 is zeroed,
which is outside the pixel data). -/
theorem array2d_blit_array_round_trip_witness :
    (roundTrip ByteOrder.lil ⟨2, 1, 3, 1, [5, 6, 9]⟩).2 = none
    ∧ pixelBytes (roundTrip ByteOrder.lil ⟨2, 1, 3, 1, [5, 6, 9]⟩).1
      = pixelBytes ⟨2, 1, 3, 1, [5, 6, 9]⟩ := by
  have h := array2d_blit_array_round_trip ByteOrder.lil ⟨2, 1, 3, 1, [5, 6, 9]⟩
    (by constructor <;> simp) (Or.inl rfl)
  exact ⟨h.1, h.2.1⟩

/-- C8 counterexample: a 3-dimensional array whose last dimension is not 3
(shape `[1, 1, 2]`) makes `blit_array` raise `ValueError`, not
`NotImplementedError`, so "NotImplementedError for every 3-dimensional
array" is false as stated. -/
theorem blit_array_3d_counterexample :
    blit_array ByteOrder.lil ⟨1, 1, 2, 2, [0, 0]⟩
        { data := [], shape := [1, 1, 2], strides := [], itemsize := 1 }
      = (⟨1, 1, 2, 2, [0, 0]⟩, some PyErr.valueError)
    ∧ PyErr.valueError ≠ PyErr.notImplementedError := by
  exact ⟨rfl, by decide⟩

/-- C8 as amended: `blit_array` raises `ValueError` when the array is
neither 2-dimensional nor 3-dimensional with last dimension 3, raises
`NotImplementedError` for every 3-dimensional array whose last dimension is
3, raises `ValueError` for a 2-dimensional array when the surface's
`BytesPerPixel` is 0 or more than 4 or when the array's dimensions differ
from the surface's, and in every one of these error cases returns before
the `memmove`, leaving the surface's pixel data unchanged. -/
theorem blit_array_error_cases (bo : ByteOrder) (surf : Surface) (a : NArray) :
    (∀ d0 d1 d2, a.shape = [d0, d1, d2] → d2 = 3 →
        blit_array bo surf a = (surf, some PyErr.notImplementedError))
    ∧ (∀ d0 d1 d2, a.shape = [d0, d1, d2] → d2 ≠ 3 →
        blit_array bo surf a = (surf, some PyErr.valueError))
    ∧ (a.shape.length ≠ 2 → a.shape.length ≠ 3 →
        blit_array bo surf a = (surf, some PyErr.valueError))
    ∧ (∀ d0 d1, a.shape = [d0, d1] → (surf.bpp = 0 ∨ 4 < surf.bpp) →
        blit_array bo surf a = (surf, some PyErr.valueError))
    ∧ (∀ d0 d1, a.shape = [d0, d1] → ¬(surf.bpp = 0 ∨ 4 < surf.bpp) →
        ¬(surf.w = d0 ∧ surf.h = d1) →
        blit_array bo surf a = (surf, some PyErr.valueError)) := by
  refine ⟨?_, ?_, ?_, ?_, ?_⟩
  · intro d0 d1 d2 hs h3
    unfold blit_array
    rw [hs]
    dsimp only
    rw [if_pos h3]
  · intro d0 d1 d2 hs h3
    unfold blit_array
    rw [hs]
    dsimp only
    rw [if_neg h3]
  · intro h2 h3
    unfold blit_array
    rcases hs : a.shape with _ | ⟨d0, t⟩
    · rfl
    · rcases t with _ | ⟨d1, t2⟩
      · rfl
      · rcases t2 with _ | ⟨d2, t3⟩
        · rw [hs] at h2
          simp at h2
        · rcases t3 with _ | ⟨d3, t4⟩
          · rw [hs] at h3
            simp at h3
          · rfl
  · intro d0 d1 hs hbpp
    unfold blit_array
    rw [hs]
    dsimp only
    rw [if_pos hbpp]
  · intro d0 d1 hs hbpp hdim
    unfold blit_array
    rw [hs]
    dsimp only
    rw [if_neg hbpp, if_pos hdim]

/-- Witness for C8: concrete instances of the three error families, with
the surface untouched. -/
theorem blit_array_error_cases_witness :
    blit_array ByteOrder.lil ⟨1, 1, 2, 2, [7, 8]⟩
        { data := [], shape := [2, 2, 3], strides := [], itemsize := 1 }
      = (⟨1, 1, 2, 2, [7, 8]⟩, some PyErr.notImplementedError)
    ∧ blit_array ByteOrder.lil ⟨1, 1, 2, 2, [7, 8]⟩
        { data := [], shape := [4], strides := [], itemsize := 1 }
      = (⟨1, 1, 2, 2, [7, 8]⟩, some PyErr.valueError)
    ∧ blit_array ByteOrder.lil ⟨1, 1, 2, 2, [7, 8]⟩
        { data := [9], shape := [2, 1], strides := [], itemsize := 2 }
      = (⟨1, 1, 2, 2, [7, 8]⟩, some PyErr.valueError) :=
  ⟨(blit_array_error_cases ByteOrder.lil ⟨1, 1, 2, 2, [7, 8]⟩
      { data := [], shape := [2, 2, 3], strides := [], itemsize := 1 }).1 2 2 3 rfl rfl,
   (blit_array_error_cases ByteOrder.lil ⟨1, 1, 2, 2, [7, 8]⟩
      { data := [], shape := [4], strides := [], itemsize := 1 }).2.2.1
      (by decide) (by decide),
   (blit_array_error_cases ByteOrder.lil ⟨1, 1, 2, 2, [7, 8]⟩
      { data := [9], shape := [2, 1], strides := [], itemsize := 2 }).2.2.2.2 2 1 rfl
      (by decide) (by decide)⟩

/-- The names bound at module level in src/lib/UserRect.py: the `Rect`
class imported from `pygame.rect` and the `UserRect` class itself.  No
function named `nonzero` is defined anywhere in the module. -/
def userRectModuleNames : List String := ["Rect", "UserRect"]

/-- The relevant portion of the Python 2 builtin namespace a bare-name
lookup falls back to; no builtin is named `nonzero`. -/
def py2BuiltinNames : List String :=
  ["abs", "apply", "bool", "callable", "chr", "cmp", "coerce", "dict", "dir",
   "divmod", "filter", "float", "getattr", "hasattr", "hash", "hex", "id",
   "int", "isinstance", "issubclass", "iter", "len", "list", "long", "map",
   "max", "min", "oct", "open", "ord", "pow", "range", "reduce", "repr",
   "round", "setattr", "slice", "str", "tuple", "type", "unichr", "unicode",
   "vars", "xrange", "zip"]

/-- Resolution of a bare name inside a method of UserRect.py: module
globals first, then the builtins; `True` iff the name is bound. -/
def resolvesGlobal (n : String) : Bool :=
  userRectModuleNames.contains n || py2BuiltinNames.contains n

/-- The wrapped `pygame.rect.Rect`, reduced to the data a truth test would
need; the native class lives outside this repository. -/
structure Rect where
  x : Int
  y : Int
  w : Int
  h : Int

/-- A UserRect instance wraps one Rect (src/lib/UserRect.py:28). -/
structure UserRect where
  rect : Rect

/-- `UserRect.__nonzero__` (src/lib/UserRect.py:47): `return
nonzero(self.rect)`.  Python first resolves the bare name `nonzero`; were
it bound, the call would produce the truth value of the wrapped Rect, but
no such name exists in the module globals or the builtins, so the lookup
raises `NameError` before anything is computed. -/
def UserRect.nonzeroCall (_r : UserRect) : Except PyErr Bool :=
  if resolvesGlobal "nonzero" then .ok true else .error .nameError

/-- C10: truth-testing any UserRect instance raises `NameError`: the name
`nonzero` used by `UserRect.__nonzero__` is defined nowhere, so a boolean
context raises instead of returning the truth value of the wrapped Rect. -/
theorem userrect_truth_test_raises_nameerror (r : UserRect) :
    UserRect.nonzeroCall r = Except.error PyErr.nameError := rfl
